import Mathlib

/-!
Verification of the range-selection core of the `rut` utility, a
reimplementation of the Unix cut tool.

The definitions below are shallow embeddings of the Rust source:

* src/range/mod.rs   : CutRange, IncreasingRange, MergedRange, Ranges,
                       Ranges::from_ranges, Ranges::complement
* src/range/parse.rs : Token, ParseRangesError, LexError, scan, parse_range,
                       parse_tokens, parse
* src/cut.rs         : select, RangeFilterIterator, cut_bytes, cut_characters,
                       cut_fields_with_char, cut_fields_with_regex

Machine integers (usize) are modelled as Nat; the one place where overflow
or slice-bounds panics matter is modelled explicitly by selectChecked, which
returns none exactly when the Rust code would panic.
-/

deriving instance DecidableEq for Except

namespace Rut

/-- An increasing range, from src/range/mod.rs.  The Rust field named end is
called stop here because end is a reserved word in Lean.  The Rust
constructor IncreasingRange::new asserts start ≤ end; that invariant appears
as a hypothesis of the theorems below. -/
structure IncreasingRange where
  start : Nat
  stop : Nat
deriving DecidableEq, Repr

/-- A range of bytes, characters, or fields to select from the input
(src/range/mod.rs, enum CutRange). -/
inductive CutRange where
  | Unit (n : Nat)
  | Closed (r : IncreasingRange)
  | FromStart (e : Nat)
  | ToEnd (s : Nat)
deriving DecidableEq, Repr

/-- Simplified view of one or more merged CutRanges
(src/range/mod.rs, enum MergedRange). -/
inductive MergedRange where
  | Closed (start stop : Nat)
  | ToEnd (start : Nat)
deriving DecidableEq, Repr

/-- The start index of a merged range. -/
def MergedRange.start : MergedRange → Nat
  | .Closed s _ => s
  | .ToEnd s => s

/-- The Ord implementation for MergedRange from src/range/mod.rs. -/
def MergedRange.cmp : MergedRange → MergedRange → Ordering
  | .ToEnd s1, .ToEnd s2 => compare s1 s2
  | .Closed s1 e1, .Closed s2 e2 => (compare s1 s2).then (compare e1 e2)
  | .ToEnd s1, .Closed s2 _ => (compare s1 s2).then .gt
  | .Closed s1 _, .ToEnd s2 => (compare s1 s2).then .lt

/-- The non-strict order induced by MergedRange.cmp; a Rust sort by Ord
produces a list that is pairwise ordered under this relation. -/
def MergedRange.le (a b : MergedRange) : Prop := a.cmp b ≠ Ordering.gt

instance : DecidableRel MergedRange.le := fun a b =>
  inferInstanceAs (Decidable (a.cmp b ≠ Ordering.gt))

/-- Conversion of a CutRange to a MergedRange
(impl From for MergedRange in src/range/mod.rs). -/
def MergedRange.ofCutRange : CutRange → MergedRange
  | .FromStart e => .Closed 0 e
  | .Unit n => .Closed n n
  | .ToEnd s => .ToEnd s
  | .Closed r => .Closed r.start r.stop

/-- A set of simplified and merged CutRanges (src/range/mod.rs, struct Ranges). -/
structure Ranges where
  ranges : List MergedRange
deriving DecidableEq, Repr

/-- The merge loop of Ranges::from_ranges: chain is the current merge chain,
the list argument is the remaining sorted ranges; returns the merged result
list (the pushes into result followed by the final push of the chain). -/
def mergeLoop (chain : MergedRange) : List MergedRange → List MergedRange
  | [] => [chain]
  | next :: rest =>
    match chain, next with
    | .ToEnd _, _ => [chain]
    | .Closed s1 e1, .ToEnd s2 =>
      if s2 ≤ e1 + 1 then [.ToEnd s1] else [.Closed s1 e1, .ToEnd s2]
    | .Closed s1 e1, .Closed s2 e2 =>
      if s2 ≤ e1 + 1 then mergeLoop (.Closed s1 (max e1 e2)) rest
      else .Closed s1 e1 :: mergeLoop (.Closed s2 e2) rest

/-- Ranges::from_ranges from src/range/mod.rs: simplify, sort, merge.
The Rust code sorts with the standard library sort on the Ord instance;
since MergedRange.cmp is a total antisymmetric order, any correct sort
produces the same list, modelled here with insertion sort. -/
def Ranges.from_ranges (crs : List CutRange) : Ranges :=
  if crs.isEmpty then ⟨[]⟩
  else
    match List.insertionSort MergedRange.le (crs.map MergedRange.ofCutRange) with
    | [] => ⟨[MergedRange.ToEnd 0]⟩
    | c :: rest => ⟨mergeLoop c rest⟩

/-- The loop of Ranges::complement: next is the first index not yet covered
by the complement, isOpen records whether a ToEnd range has been seen. -/
def complementGo (next : Nat) (isOpen : Bool) : List MergedRange → List MergedRange
  | [] => if isOpen then [] else [.ToEnd next]
  | .Closed s e :: rest =>
    (if s ≠ 0 then [.Closed next (s - 1)] else []) ++ complementGo (e + 1) isOpen rest
  | .ToEnd s :: rest =>
    (if s ≠ 0 then [.Closed next (s - 1)] else []) ++ complementGo next true rest

/-- Ranges::complement from src/range/mod.rs. -/
def Ranges.complement (r : Ranges) : Ranges := ⟨complementGo 0 false r.ranges⟩

/-- The loop of select from src/cut.rs, iterating over the merged ranges.
A slice input[s..en] is modelled as (input.drop s).take (en - s). -/
def selectGo {T : Type _} (input : List T) : List MergedRange → List T
  | [] => []
  | .Closed s e :: rest =>
    if input.length ≤ s then []
    else (input.drop s).take (min (e + 1) input.length - s) ++ selectGo input rest
  | .ToEnd s :: rest =>
    if input.length ≤ s then []
    else input.drop s ++ selectGo input rest

/-- select from src/cut.rs. -/
def select {T : Type _} (input : List T) (ranges : Ranges) : List T :=
  selectGo input ranges.ranges

/-- usize::MAX for the 64-bit targets the crate is built for. -/
def usizeMax : Nat := 2 ^ 64 - 1

/-- Validity of a merged range: a Closed range produced through
IncreasingRange::new has start ≤ end. -/
def ValidMR : MergedRange → Prop
  | .Closed s e => s ≤ e
  | .ToEnd _ => True

instance : DecidablePred ValidMR := fun r =>
  match r with
  | .Closed s e => inferInstanceAs (Decidable (s ≤ e))
  | .ToEnd _ => inferInstanceAs (Decidable True)

/-- The invariant of a CutRange: the Rust constructor IncreasingRange::new
asserts start ≤ end, the other variants carry no invariant. -/
def ValidCut : CutRange → Prop
  | .Closed r => r.start ≤ r.stop
  | _ => True

instance : DecidablePred ValidCut := fun r =>
  match r with
  | .Closed ir => inferInstanceAs (Decidable (ir.start ≤ ir.stop))
  | .Unit _ => inferInstanceAs (Decidable True)
  | .FromStart _ => inferInstanceAs (Decidable True)
  | .ToEnd _ => inferInstanceAs (Decidable True)

/-- The bound under which the arithmetic end + 1 in select cannot overflow a
usize. -/
def ClosedEndBound : MergedRange → Prop
  | .Closed _ e => e < usizeMax
  | .ToEnd _ => True

instance : DecidablePred ClosedEndBound := fun r =>
  match r with
  | .Closed _ e => inferInstanceAs (Decidable (e < usizeMax))
  | .ToEnd _ => inferInstanceAs (Decidable True)

/-- Debug-faithful model of the body of select: each Rust slice access and
the addition end + 1 is checked, and none is returned exactly when the Rust
code would panic (slice bounds violation or usize overflow). -/
def selectCheckedGo {T : Type _} (input : List T) : List MergedRange → Option (List T)
  | [] => some []
  | .Closed s e :: rest =>
    if input.length ≤ s then some []
    else if usizeMax < e + 1 then none
    else
      let en := min (e + 1) input.length
      if s ≤ en ∧ en ≤ input.length then
        ((input.drop s).take (en - s) ++ ·) <$> selectCheckedGo input rest
      else none
  | .ToEnd s :: rest =>
    if input.length ≤ s then some []
    else if s ≤ input.length then (input.drop s ++ ·) <$> selectCheckedGo input rest
    else none

/-- Checked version of select; some means the Rust call returns normally. -/
def selectChecked {T : Type _} (input : List T) (ranges : Ranges) : Option (List T) :=
  selectCheckedGo input ranges.ranges

/-- Canonicity of a list of merged ranges relative to a lower bound n:
all starts are at least n, every Closed range is increasing, consecutive
ranges are separated by a gap of at least two (no overlap, no adjacency),
and a ToEnd range can only be the last element. -/
def CanonFrom : Nat → List MergedRange → Prop
  | _, [] => True
  | n, .ToEnd s :: rest => n ≤ s ∧ rest = []
  | n, .Closed s e :: rest => n ≤ s ∧ s ≤ e ∧ CanonFrom (e + 2) rest

instance instDecCanonFrom : (n : Nat) → (rs : List MergedRange) → Decidable (CanonFrom n rs)
  | _, [] => .isTrue trivial
  | n, .ToEnd s :: rest => by
    unfold CanonFrom; exact instDecidableAnd
  | n, .Closed s e :: rest => by
    have := instDecCanonFrom (e + 2) rest
    unfold CanonFrom; exact instDecidableAnd

/-- The first canonicity condition of the spec: elements strictly sorted
ascending by start. -/
def StrictlySortedStarts (rs : List MergedRange) : Prop :=
  rs.Chain' (fun a b => a.start < b.start)

/-- The second canonicity condition of the spec: no two consecutive elements
r_prev, r_next satisfy r_next.start ≤ r_prev.end + 1. -/
def NoOverlapOrAdjacent (rs : List MergedRange) : Prop :=
  rs.Chain' (fun a b => ∀ s e, a = .Closed s e → ¬ (b.start ≤ e + 1))

/-- The third canonicity condition of the spec: at most one ToEnd appears,
and when present it is the last element; equivalently every element other
than the last is a Closed range. -/
def ToEndOnlyLast (rs : List MergedRange) : Prop :=
  ∀ r ∈ rs.dropLast, ∀ s, r ≠ .ToEnd s

/-- The clipped slice a single merged range contributes to the selection,
as described by the spec of select: Closed(s,e) contributes
elements[s .. min(e+1, len)] when s < len, ToEnd(s) contributes elements[s..]
when s < len, and a range starting at or past len contributes nothing. -/
def specClipSlice {T : Type _} (input : List T) : MergedRange → List T
  | .Closed s e =>
    if s < input.length then (input.drop s).take (min (e + 1) input.length - s) else []
  | .ToEnd s =>
    if s < input.length then input.drop s else []

/-- Tokens of the range-list grammar (src/range/parse.rs, enum Token). -/
inductive Token where
  | number (n : Nat)
  | hyphen
  | comma
  | blank (c : Char)
deriving DecidableEq, Repr

/-- Lexer errors (src/range/parse.rs, enum LexError). -/
inductive LexError where
  | unrecognizedCharacter (c : Char)
deriving DecidableEq, Repr

/-- Parse errors (src/range/parse.rs, enum ParseRangesError). -/
inductive ParseRangesError where
  | numberedFromZero
  | indecipherableRange (tokens : List Token)
  | descendingRange
  | unexpectedSeparator (t : Token)
  | lexError (e : LexError)
deriving DecidableEq, Repr

/-- The numeric value of a run of decimal digit characters, as computed by
scan_number followed by usize parsing in src/range/parse.rs. -/
def natOfDigits (ds : List Char) : Nat :=
  ds.foldl (fun acc c => acc * 10 + (c.toNat - 48)) 0

/-- scan from src/range/parse.rs: lex a range-list string into tokens.
A digit starts a maximal run of digits that is scanned as one number. -/
def scan (s : List Char) : Except LexError (List Token) :=
  match s with
  | [] => .ok []
  | c :: rest =>
    if c = '-' then (fun ts => Token.hyphen :: ts) <$> scan rest
    else if c = ',' then (fun ts => Token.comma :: ts) <$> scan rest
    else if c = ' ' ∨ c = '\t' then (fun ts => Token.blank c :: ts) <$> scan rest
    else if hdig : c.isDigit then
      (fun ts => Token.number (natOfDigits ((c :: rest).takeWhile Char.isDigit)) :: ts) <$>
        scan ((c :: rest).dropWhile Char.isDigit)
    else .error (.unrecognizedCharacter c)
termination_by s.length
decreasing_by
  · simp
  · simp
  · simp
  · simp only [List.dropWhile_cons, hdig, if_true, List.length_cons]
    exact Nat.lt_succ_of_le (List.dropWhile_sublist _).length_le

/-- Whether a token can belong to a single range group: parse_range collects
all number and hyphen tokens until the next separator. -/
def isNH : Token → Bool
  | .number _ => true
  | .hyphen => true
  | _ => false

/-- The body of parse_range from src/range/parse.rs, acting on the collected
group of number and hyphen tokens. -/
def parse_range_group (range : List Token) : Except ParseRangesError CutRange :=
  match range with
  | [.number n] =>
    if n = 0 then .error .numberedFromZero else .ok (.Unit (n - 1))
  | [.hyphen, .number e] =>
    if e = 0 then .error .numberedFromZero else .ok (.FromStart (e - 1))
  | [.number s, .hyphen] =>
    if s = 0 then .error .numberedFromZero else .ok (.ToEnd (s - 1))
  | [.number s, .hyphen, .number e] =>
    if s = 0 ∨ e = 0 then .error .numberedFromZero
    else if s ≤ e then .ok (.Closed ⟨s - 1, e - 1⟩)
    else .error .descendingRange
  | _ => .error (.indecipherableRange range)

/-- parse_range from src/range/parse.rs: consume the maximal prefix of
number and hyphen tokens, parse it as one range, and return the remaining
tokens. -/
def parse_range (tokens : List Token) : Except ParseRangesError (CutRange × List Token) :=
  match parse_range_group (tokens.takeWhile isNH) with
  | .error e => .error e
  | .ok cr => .ok (cr, tokens.dropWhile isNH)

/-- The loop of parse_tokens from src/range/parse.rs: parse one range
(parse_range splits the tokens at the first separator), then consume exactly
one comma or blank separator and continue; accumulated ranges are handed to
Ranges::from_ranges at the end. -/
def parseTokensGo (tokens : List Token) (acc : List CutRange) :
    Except ParseRangesError (List CutRange) :=
  match parse_range_group (tokens.takeWhile isNH) with
  | .error e => .error e
  | .ok cr =>
    match h : tokens.dropWhile isNH with
    | [] => .ok (acc ++ [cr])
    | t :: rest2 =>
      match t with
      | .comma => parseTokensGo rest2 (acc ++ [cr])
      | .blank _ => parseTokensGo rest2 (acc ++ [cr])
      | _ => .error (.unexpectedSeparator t)
termination_by tokens.length
decreasing_by
  all_goals
    have hlen : (tokens.dropWhile isNH).length ≤ tokens.length :=
      (List.dropWhile_sublist _).length_le
    rw [h] at hlen
    simp at hlen
    omega

/-- parse_tokens from src/range/parse.rs. -/
def parse_tokens (tokens : List Token) : Except ParseRangesError Ranges :=
  (parseTokensGo tokens []).map Ranges.from_ranges

/-- parse from src/range/parse.rs. -/
def parse (s : List Char) : Except ParseRangesError Ranges :=
  match scan s with
  | .ok tokens => parse_tokens tokens
  | .error e => .error (.lexError e)

/-- A range group that the claim calls invalid: it mentions the number 0 in
one of the four token shapes, or is a descending range N-M with N > M. -/
def isBadGroup (range : List Token) : Bool :=
  match range with
  | [.number n] => n == 0
  | [.hyphen, .number m] => m == 0
  | [.number n, .hyphen] => n == 0
  | [.number n, .hyphen, .number m] => n == 0 || m == 0 || decide (m < n)
  | _ => false

/-- Whether some separator-delimited group of the token list is invalid in
the sense of isBadGroup. -/
def containsBadGroup (tokens : List Token) : Bool :=
  isBadGroup (tokens.takeWhile isNH) ||
    match h : tokens.dropWhile isNH with
    | [] => false
    | _ :: rest2 => containsBadGroup rest2
termination_by tokens.length
decreasing_by
  have hlen : (tokens.dropWhile isNH).length ≤ tokens.length :=
    (List.dropWhile_sublist _).length_le
  rw [h] at hlen
  simp at hlen
  omega

/-- Whether the token list does not begin with a number or hyphen, so that a
range group placed in front of it stays intact. -/
def headNotNH (tokens : List Token) : Bool :=
  match tokens with
  | [] => true
  | t :: _ => !(isNH t)

/-- The collected output of the RangeFilterIterator of src/cut.rs, written
as one recursion that mirrors its next method: inner is the remaining inner
iterator, nextIndex the index of its next element, current the current range
and ranges the remaining range iterator.  advance_inner appears as the drop
of start - nextIndex elements together with taking the maximum of nextIndex
and start; in the Closed case a still-in-range element is emitted and
nextIndex advances past it, otherwise the next range is fetched and the
iterator retries; in the ToEnd case every remaining element is emitted
(next_index is not advanced past the elements there, exactly as in the
source).  Collection stops when the inner iterator is exhausted or the
ranges run out. -/
def rfiCollect {T : Type _} (inner : List T) (nextIndex : Nat)
    (current : Option MergedRange) (ranges : List MergedRange) : List T :=
  match current with
  | none => []
  | some (.Closed s e) =>
    if max nextIndex s ≤ e then
      match h2 : inner.drop (s - nextIndex) with
      | [] => []
      | t :: rest => t :: rfiCollect rest (max nextIndex s + 1) (some (.Closed s e)) ranges
    else
      rfiCollect (inner.drop (s - nextIndex)) (max nextIndex s) ranges.head? ranges.tail
  | some (.ToEnd s) =>
    match h2 : inner.drop (s - nextIndex) with
    | [] => []
    | t :: rest => t :: rfiCollect rest (max nextIndex s) (some (.ToEnd s)) ranges
termination_by (ranges.length + (if current.isSome then 1 else 0), inner.length)
decreasing_by
  · apply Prod.Lex.right
    have hl := congrArg List.length h2
    simp [List.length_drop] at hl
    omega
  · apply Prod.Lex.left
    cases ranges <;> simp
  · apply Prod.Lex.right
    have hl := congrArg List.length h2
    simp [List.length_drop] at hl
    omega

/-- The collected output of RangeFilterIterator::new(elements, ranges): the
constructor pulls the first range into current and starts at index zero. -/
def rfiCollectInit {T : Type _} (elements : List T) (r : Ranges) : List T :=
  rfiCollect elements 0 r.ranges.head? r.ranges.tail

/-- One chunk per BufRead::read_until call in the streaming loops of
src/cut.rs: each chunk runs up to and including the next terminator byte,
the final chunk may lack the terminator, and empty input yields no chunks. -/
def chunks (d : Nat) : List Nat → List (List Nat)
  | [] => []
  | b :: rest =>
    if b = d then [b] :: chunks d rest
    else
      match chunks d rest with
      | [] => [[b]]
      | c :: cs => (b :: c) :: cs

/-- The strip of one trailing terminator byte from a chunk: the
ends_with check followed by buf.pop in every streaming loop of src/cut.rs. -/
def stripTerm (d : Nat) (c : List Nat) : List Nat :=
  if c.getLast? = some d then c.dropLast else c

/-- The shared shape of the four streaming loops of src/cut.rs: for each
chunk, strip the terminator and run the per-line body; the body yields none
when the line is not valid UTF-8 (the ? operator then aborts the loop, but
rows already written stay written, recorded by the Bool error flag) or the
rows to emit (zero rows when a line is suppressed). -/
def cutLoopGo (d : Nat) (step : List Nat → Option (List (List Nat))) :
    List (List Nat) → List (List Nat) × Bool
  | [] => ([], false)
  | c :: cs =>
    match step (stripTerm d c) with
    | none => ([], true)
    | some rows =>
      let p := cutLoopGo d step cs
      (rows ++ p.1, p.2)

/-- A streaming loop over the chunks of the input. -/
def cutLoop (d : Nat) (step : List Nat → Option (List (List Nat))) (input : List Nat) :
    List (List Nat) × Bool :=
  cutLoopGo d step (chunks d input)

/-- cut_bytes from src/cut.rs: per line, select bytes and append the
terminator byte; the body never fails. -/
def cut_bytes (d : Nat) (ranges : Ranges) (input : List Nat) : List (List Nat) × Bool :=
  cutLoop d (fun l => some [select l ranges ++ [d]]) input

/-- Strict UTF-8 decoding of a byte list into Unicode scalar values, exactly
as String::from_utf8 validates it: none on a truncated sequence, a bad
continuation byte, an overlong form, a surrogate, or a value above
0x10FFFF. -/
def utf8Decode : List Nat → Option (List Nat)
  | [] => some []
  | b :: rest =>
    if b < 0x80 then (fun vs => b :: vs) <$> utf8Decode rest
    else if 0xC2 ≤ b ∧ b ≤ 0xDF then
      match rest with
      | c1 :: rest2 =>
        if 0x80 ≤ c1 ∧ c1 ≤ 0xBF then
          (fun vs => ((b - 0xC0) * 0x40 + (c1 - 0x80)) :: vs) <$> utf8Decode rest2
        else none
      | _ => none
    else if 0xE0 ≤ b ∧ b ≤ 0xEF then
      match rest with
      | c1 :: c2 :: rest2 =>
        if (if b = 0xE0 then 0xA0 ≤ c1 ∧ c1 ≤ 0xBF
            else if b = 0xED then 0x80 ≤ c1 ∧ c1 ≤ 0x9F
            else 0x80 ≤ c1 ∧ c1 ≤ 0xBF) ∧ 0x80 ≤ c2 ∧ c2 ≤ 0xBF then
          (fun vs => ((b - 0xE0) * 0x1000 + (c1 - 0x80) * 0x40 + (c2 - 0x80)) :: vs) <$>
            utf8Decode rest2
        else none
      | _ => none
    else if 0xF0 ≤ b ∧ b ≤ 0xF4 then
      match rest with
      | c1 :: c2 :: c3 :: rest2 =>
        if (if b = 0xF0 then 0x90 ≤ c1 ∧ c1 ≤ 0xBF
            else if b = 0xF4 then 0x80 ≤ c1 ∧ c1 ≤ 0x8F
            else 0x80 ≤ c1 ∧ c1 ≤ 0xBF) ∧ 0x80 ≤ c2 ∧ c2 ≤ 0xBF ∧ 0x80 ≤ c3 ∧ c3 ≤ 0xBF then
          (fun vs => ((b - 0xF0) * 0x40000 + (c1 - 0x80) * 0x1000 + (c2 - 0x80) * 0x40
            + (c3 - 0x80)) :: vs) <$> utf8Decode rest2
        else none
      | _ => none
    else none

/-- UTF-8 encoding of one Unicode scalar value, as the bytes of a String
present it. -/
def utf8EncodeChar (v : Nat) : List Nat :=
  if v < 0x80 then [v]
  else if v < 0x800 then [0xC0 + v / 0x40, 0x80 + v % 0x40]
  else if v < 0x10000 then [0xE0 + v / 0x1000, 0x80 + v / 0x40 % 0x40, 0x80 + v % 0x40]
  else [0xF0 + v / 0x40000, 0x80 + v / 0x1000 % 0x40, 0x80 + v / 0x40 % 0x40, 0x80 + v % 0x40]

/-- UTF-8 encoding of a sequence of scalar values. -/
def utf8Encode (vs : List Nat) : List Nat := (vs.map utf8EncodeChar).flatten

/-- Whether String::from_utf8 accepts the byte list. -/
def validUtf8 (l : List Nat) : Bool := (utf8Decode l).isSome

/-- cut_characters from src/cut.rs: per line, decode the bytes
(string_from_utf8, which fails on invalid UTF-8), select the scalar values,
re-encode and append the terminator byte. -/
def cut_characters (d : Nat) (ranges : Ranges) (input : List Nat) : List (List Nat) × Bool :=
  cutLoop d (fun l => (utf8Decode l).map fun cs => [utf8Encode (select cs ranges) ++ [d]]) input

/-- The split of a sequence at every occurrence of one element, empty parts
preserved, so that the part count is the separator count plus one; this is
the behavior of str::split with a char pattern. -/
def splitSep {α : Type _} [DecidableEq α] (d : α) : List α → List (List α)
  | [] => [[]]
  | v :: rest =>
    if v = d then [] :: splitSep d rest
    else
      match splitSep d rest with
      | [] => [[v]]
      | f :: fs => (v :: f) :: fs

/-- The loop body of cut_fields_with_char from src/cut.rs on one stripped
line: decode the bytes; when the delimiter character occurs in the line,
split at it, select the fields through the RangeFilterIterator, join with
the output delimiter and terminate the row; otherwise apply the no-delimiter
policy, dropping the line when suppress is on and emitting the original line
bytes verbatim plus terminator when it is off. -/
def fieldsCharStep (d : Nat) (fdelim : Nat) (joiner : List Nat) (suppress : Bool)
    (ranges : Ranges) (l : List Nat) : Option (List (List Nat)) :=
  (utf8Decode l).map fun line =>
    if line.contains fdelim then
      [utf8Encode (List.intercalate joiner (rfiCollectInit (splitSep fdelim line) ranges)) ++ [d]]
    else if suppress then []
    else [l ++ [d]]

/-- cut_fields_with_char from src/cut.rs. -/
def cut_fields_with_char (d : Nat) (fdelim : Nat) (joiner : List Nat) (suppress : Bool)
    (ranges : Ranges) (input : List Nat) : List (List Nat) × Bool :=
  cutLoop d (fieldsCharStep d fdelim joiner suppress ranges) input

/-- The loop body of cut_fields_with_regex from src/cut.rs.  The regex
engine is the external collaborator the spec leaves out of scope, so it is
abstracted by its interface: isMatch decides whether the pattern matches the
line, splitf splits the line at all pattern matches. -/
def fieldsRegexStep (d : Nat) (isMatch : List Nat → Bool)
    (splitf : List Nat → List (List Nat)) (joiner : List Nat) (suppress : Bool)
    (ranges : Ranges) (l : List Nat) : Option (List (List Nat)) :=
  (utf8Decode l).map fun line =>
    if isMatch line then
      [utf8Encode (List.intercalate joiner (rfiCollectInit (splitf line) ranges)) ++ [d]]
    else if suppress then []
    else [l ++ [d]]

/-- cut_fields_with_regex from src/cut.rs, over the abstract regex
interface. -/
def cut_fields_with_regex (d : Nat) (isMatch : List Nat → Bool)
    (splitf : List Nat → List (List Nat)) (joiner : List Nat) (suppress : Bool)
    (ranges : Ranges) (input : List Nat) : List (List Nat) × Bool :=
  cutLoop d (fieldsRegexStep d isMatch splitf joiner suppress ranges) input

/-- The spec-side description of line splitting: split the input on the
terminator byte, one trailing terminator stripped per chunk; equivalently,
split at every terminator and drop the final empty part exactly when the
input ends with the terminator.  Empty input has no lines. -/
def linesOf (d : Nat) (input : List Nat) : List (List Nat) :=
  if input = [] then []
  else if input.getLast? = some d then (splitSep d input).dropLast
  else splitSep d input

theorem le_closed_closed {s1 e1 s2 e2 : Nat} :
    MergedRange.le (.Closed s1 e1) (.Closed s2 e2) ↔ s1 < s2 ∨ (s1 = s2 ∧ e1 ≤ e2) := by
  unfold MergedRange.le MergedRange.cmp
  rcases Nat.lt_trichotomy s1 s2 with h | h | h
  · simp [Nat.compare_eq_lt.mpr h, Ordering.then]
    omega
  · subst h
    simp only [Nat.compare_eq_eq.mpr rfl, Ordering.then, ne_eq, Nat.compare_eq_gt, true_and]
    omega
  · simp [Nat.compare_eq_gt.mpr h, Ordering.then]
    omega

theorem le_closed_toEnd {s1 e1 s2 : Nat} :
    MergedRange.le (.Closed s1 e1) (.ToEnd s2) ↔ s1 ≤ s2 := by
  unfold MergedRange.le MergedRange.cmp
  rcases Nat.lt_trichotomy s1 s2 with h | h | h
  · simp [Nat.compare_eq_lt.mpr h, Ordering.then]
    omega
  · subst h
    simp [Nat.compare_eq_eq.mpr rfl, Ordering.then]
  · simp [Nat.compare_eq_gt.mpr h, Ordering.then]
    omega

theorem le_toEnd_closed {s1 s2 e2 : Nat} :
    MergedRange.le (.ToEnd s1) (.Closed s2 e2) ↔ s1 < s2 := by
  unfold MergedRange.le MergedRange.cmp
  rcases Nat.lt_trichotomy s1 s2 with h | h | h
  · simp [Nat.compare_eq_lt.mpr h, Ordering.then]
    omega
  · subst h
    simp [Nat.compare_eq_eq.mpr rfl, Ordering.then]
  · simp [Nat.compare_eq_gt.mpr h, Ordering.then]
    omega

theorem le_toEnd_toEnd {s1 s2 : Nat} :
    MergedRange.le (.ToEnd s1) (.ToEnd s2) ↔ s1 ≤ s2 := by
  unfold MergedRange.le MergedRange.cmp
  rcases Nat.lt_trichotomy s1 s2 with h | h | h
  · simp [Nat.compare_eq_lt.mpr h]
    omega
  · subst h
    simp [Nat.compare_eq_eq.mpr rfl]
  · simp [Nat.compare_eq_gt.mpr h]
    omega

instance : IsTotal MergedRange MergedRange.le :=
  ⟨by
    intro a b
    cases a <;> cases b <;>
      simp [le_closed_closed, le_closed_toEnd, le_toEnd_closed, le_toEnd_toEnd] <;> omega⟩

instance : IsTrans MergedRange MergedRange.le :=
  ⟨by
    intro a b c
    cases a <;> cases b <;> cases c <;>
      simp [le_closed_closed, le_closed_toEnd, le_toEnd_closed, le_toEnd_toEnd] <;> omega⟩

theorem canonFrom_mono : ∀ {rs : List MergedRange} {m n : Nat},
    m ≤ n → CanonFrom n rs → CanonFrom m rs
  | [], _, _, _, _ => trivial
  | .ToEnd _ :: _, _, _, h, hc => ⟨Nat.le_trans h hc.1, hc.2⟩
  | .Closed _ _ :: _, _, _, h, hc => ⟨Nat.le_trans h hc.1, hc.2.1, hc.2.2⟩

theorem canonFrom_start_le : ∀ {rs : List MergedRange} {n : Nat},
    CanonFrom n rs → ∀ r ∈ rs, n ≤ r.start := by
  intro rs
  induction rs with
  | nil => intro n _ r hr; cases hr
  | cons a rest ih =>
    intro n hc r hr
    cases a with
    | ToEnd s =>
      obtain ⟨h1, h2⟩ := hc
      subst h2
      rcases List.mem_singleton.mp hr with rfl
      exact h1
    | Closed s e =>
      obtain ⟨h1, h2, h3⟩ := hc
      rcases List.mem_cons.mp hr with rfl | hr2
      · exact h1
      · exact Nat.le_trans (by omega) (ih h3 r hr2)

theorem canonFrom_strictSorted : ∀ {rs : List MergedRange} {n : Nat},
    CanonFrom n rs → StrictlySortedStarts rs := by
  intro rs
  induction rs with
  | nil => intro n _; exact List.chain'_nil
  | cons a rest ih =>
    intro n hc
    cases a with
    | ToEnd s =>
      obtain ⟨_, h2⟩ := hc
      subst h2
      exact List.chain'_singleton _
    | Closed s e =>
      obtain ⟨h1, h2, h3⟩ := hc
      cases rest with
      | nil => exact List.chain'_singleton _
      | cons b rest2 =>
        refine List.chain'_cons.mpr ⟨?_, ih h3⟩
        have hb : e + 2 ≤ b.start := canonFrom_start_le h3 b (List.mem_cons_self _ _)
        cases b <;> simp only [MergedRange.start] at hb ⊢ <;> omega

theorem canonFrom_noOverlap : ∀ {rs : List MergedRange} {n : Nat},
    CanonFrom n rs → NoOverlapOrAdjacent rs := by
  intro rs
  induction rs with
  | nil => intro n _; exact List.chain'_nil
  | cons a rest ih =>
    intro n hc
    cases a with
    | ToEnd s =>
      obtain ⟨_, h2⟩ := hc
      subst h2
      exact List.chain'_singleton _
    | Closed s e =>
      obtain ⟨h1, h2, h3⟩ := hc
      cases rest with
      | nil => exact List.chain'_singleton _
      | cons b rest2 =>
        refine List.chain'_cons.mpr ⟨?_, ih h3⟩
        intro s' e' heq
        have hb : e + 2 ≤ b.start := canonFrom_start_le h3 b (List.mem_cons_self _ _)
        cases heq
        omega

theorem canonFrom_toEndLast : ∀ {rs : List MergedRange} {n : Nat},
    CanonFrom n rs → ToEndOnlyLast rs := by
  intro rs
  induction rs with
  | nil => intro n _ r hr; cases hr
  | cons a rest ih =>
    intro n hc r hr
    cases a with
    | ToEnd s =>
      obtain ⟨_, h2⟩ := hc
      subst h2
      cases hr
    | Closed s e =>
      obtain ⟨h1, h2, h3⟩ := hc
      cases rest with
      | nil => cases hr
      | cons b rest2 =>
        rw [List.dropLast_cons₂] at hr
        rcases List.mem_cons.mp hr with rfl | hr2
        · intro s' h
          cases h
        · exact ih h3 r hr2

theorem validMR_ofCut {cr : CutRange} (h : ValidCut cr) : ValidMR (MergedRange.ofCutRange cr) := by
  cases cr with
  | Unit n => exact Nat.le_refl n
  | Closed r => exact h
  | FromStart e => exact Nat.zero_le e
  | ToEnd s => trivial

theorem mergeLoop_canonFrom : ∀ (rest : List MergedRange) (chain : MergedRange),
    ValidMR chain → (∀ r ∈ rest, ValidMR r) →
    (∀ r ∈ rest, MergedRange.le chain r) → List.Pairwise MergedRange.le rest →
    CanonFrom chain.start (mergeLoop chain rest) := by
  intro rest
  induction rest with
  | nil =>
    intro chain hv _ _ _
    cases chain with
    | Closed s e => exact ⟨Nat.le_refl s, hv, trivial⟩
    | ToEnd s => exact ⟨Nat.le_refl s, rfl⟩
  | cons next rest ih =>
    intro chain hv hvall hle hpw
    obtain ⟨hnext, hpw'⟩ := List.pairwise_cons.mp hpw
    cases chain with
    | ToEnd s1 =>
      show CanonFrom s1 [MergedRange.ToEnd s1]
      exact ⟨Nat.le_refl s1, rfl⟩
    | Closed s1 e1 =>
      cases next with
      | ToEnd s2 =>
        have hcn : s1 ≤ s2 := le_closed_toEnd.mp (hle _ (List.mem_cons_self _ _))
        by_cases h : s2 ≤ e1 + 1
        · show CanonFrom s1 (mergeLoop _ _)
          rw [mergeLoop, if_pos h]
          exact ⟨Nat.le_refl s1, rfl⟩
        · show CanonFrom s1 (mergeLoop _ _)
          rw [mergeLoop, if_neg h]
          exact ⟨Nat.le_refl s1, hv, by omega, rfl⟩
      | Closed s2 e2 =>
        have hcn := le_closed_closed.mp (hle _ (List.mem_cons_self _ _))
        by_cases h : s2 ≤ e1 + 1
        · show CanonFrom s1 (mergeLoop _ _)
          rw [mergeLoop, if_pos h]
          have hres := ih (MergedRange.Closed s1 (max e1 e2))
            (by show s1 ≤ max e1 e2; have : s1 ≤ e1 := hv; omega)
            (fun r hr => hvall r (List.mem_cons_of_mem _ hr))
            (by
              intro r hr
              have h1 := hle r (List.mem_cons_of_mem _ hr)
              have h2 := hnext r hr
              cases r with
              | Closed s3 e3 =>
                rw [le_closed_closed] at h1 h2 ⊢
                omega
              | ToEnd s3 =>
                rw [le_closed_toEnd] at h1 ⊢
                exact h1)
            hpw'
          exact hres
        · show CanonFrom s1 (mergeLoop _ _)
          rw [mergeLoop, if_neg h]
          refine ⟨Nat.le_refl s1, hv, ?_⟩
          have hres : CanonFrom s2 (mergeLoop (MergedRange.Closed s2 e2) rest) :=
            ih (MergedRange.Closed s2 e2)
              (hvall _ (List.mem_cons_self _ _)) (fun r hr => hvall r (List.mem_cons_of_mem _ hr))
              hnext hpw'
          exact canonFrom_mono (by omega) hres

theorem from_ranges_canonFrom (crs : List CutRange) (h : ∀ r ∈ crs, ValidCut r) :
    CanonFrom 0 (Ranges.from_ranges crs).ranges := by
  unfold Ranges.from_ranges
  split
  · trivial
  · rename_i hne
    cases hs : List.insertionSort MergedRange.le (crs.map MergedRange.ofCutRange) with
    | nil => exact ⟨Nat.le_refl 0, rfl⟩
    | cons c rest =>
      have hsorted : List.Sorted MergedRange.le (c :: rest) := by
        rw [← hs]
        exact List.sorted_insertionSort MergedRange.le _
      have hmem : ∀ r ∈ c :: rest, ValidMR r := by
        intro r hr
        rw [← hs] at hr
        have := (List.perm_insertionSort MergedRange.le _).mem_iff.mp hr
        obtain ⟨cr, hcr, rfl⟩ := List.mem_map.mp this
        exact validMR_ofCut (h cr hcr)
      obtain ⟨hlec, hpw⟩ := List.pairwise_cons.mp hsorted
      exact canonFrom_mono (Nat.zero_le _)
        (mergeLoop_canonFrom rest c (hmem c (List.mem_cons_self _ _))
          (fun r hr => hmem r (List.mem_cons_of_mem _ hr)) hlec hpw)

theorem complementGo_pair : ∀ (rs : List MergedRange) (s e : Nat), s ≤ e →
    CanonFrom (e + 2) rs →
    complementGo s false (complementGo (e + 1) false rs) = .Closed s e :: rs := by
  intro rs
  induction rs with
  | nil =>
    intro s e _ _
    simp [complementGo]
  | cons a rest ih =>
    intro s e hse hc
    cases a with
    | Closed s' e' =>
      obtain ⟨h1, h2, h3⟩ := hc
      have hs' : s' ≠ 0 := by omega
      rw [complementGo, if_pos hs']
      rw [List.singleton_append, complementGo, if_pos (by omega : e + 1 ≠ 0)]
      rw [List.singleton_append]
      have : s' - 1 + 1 = s' := by omega
      rw [this, Nat.add_sub_cancel, ih s' e' h2 h3]
    | ToEnd s' =>
      obtain ⟨h1, h2⟩ := hc
      subst h2
      have hs' : s' ≠ 0 := by omega
      have h5 : s' - 1 + 1 = s' := by omega
      simp [complementGo, hs', h5]

theorem complementGo_involution (rs : List MergedRange) (hc : CanonFrom 0 rs) :
    complementGo 0 false (complementGo 0 false rs) = rs := by
  cases rs with
  | nil => simp [complementGo]
  | cons a rest =>
    cases a with
    | Closed s e =>
      obtain ⟨_, h2, h3⟩ := hc
      by_cases hs : s = 0
      · subst hs
        rw [complementGo, if_neg (by simp)]
        rw [List.nil_append]
        exact complementGo_pair rest 0 e h2 h3
      · rw [complementGo, if_pos hs, List.singleton_append]
        conv_lhs =>
          rw [complementGo, if_neg (by simp)]
        rw [List.nil_append]
        have hss : s - 1 + 1 = s := by omega
        rw [hss]
        exact complementGo_pair rest s e h2 h3
    | ToEnd s =>
      obtain ⟨_, h2⟩ := hc
      subst h2
      by_cases hs : s = 0
      · subst hs
        simp [complementGo]
      · have hss : s - 1 + 1 = s := by omega
        simp [complementGo, hs, hss]

theorem specClipSlice_nil_of_len_le {T : Type _} {input : List T} {r : MergedRange}
    (h : input.length ≤ r.start) : specClipSlice input r = [] := by
  cases r with
  | Closed s e =>
    simp only [MergedRange.start] at h
    rw [specClipSlice, if_neg (by omega)]
  | ToEnd s =>
    simp only [MergedRange.start] at h
    rw [specClipSlice, if_neg (by omega)]

theorem selectGo_eq_clips {T : Type _} (input : List T) : ∀ (rs : List MergedRange) (n : Nat),
    CanonFrom n rs → selectGo input rs = (rs.map (specClipSlice input)).flatten := by
  intro rs
  induction rs with
  | nil => intro n _; simp [selectGo]
  | cons a rest ih =>
    intro n hc
    cases a with
    | Closed s e =>
      obtain ⟨h1, h2, h3⟩ := hc
      by_cases hlen : input.length ≤ s
      · rw [selectGo, if_pos hlen]
        rw [List.map_cons, List.flatten_cons,
          specClipSlice_nil_of_len_le (r := MergedRange.Closed s e) hlen, List.nil_append]
        symm
        rw [List.flatten_eq_nil_iff]
        intro l hl
        obtain ⟨mr, hmr, rfl⟩ := List.mem_map.mp hl
        exact specClipSlice_nil_of_len_le
          (Nat.le_trans (by omega) (canonFrom_start_le h3 mr hmr))
      · rw [selectGo, if_neg hlen]
        rw [List.map_cons, List.flatten_cons, specClipSlice, if_pos (by omega), ih _ h3]
    | ToEnd s =>
      obtain ⟨h1, h2⟩ := hc
      subst h2
      by_cases hlen : input.length ≤ s
      · rw [selectGo, if_pos hlen]
        simp [specClipSlice_nil_of_len_le (r := MergedRange.ToEnd s) hlen]
      · rw [selectGo, if_neg hlen]
        simp [selectGo, specClipSlice, if_pos (by omega : s < input.length)]

theorem selectGo_sublist {T : Type _} (input : List T) : ∀ (rs : List MergedRange) (n : Nat),
    CanonFrom n rs → List.Sublist (selectGo input rs) (input.drop n) := by
  intro rs
  induction rs with
  | nil => intro n _; exact List.nil_sublist _
  | cons a rest ih =>
    intro n hc
    cases a with
    | Closed s e =>
      obtain ⟨h1, h2, h3⟩ := hc
      by_cases hlen : input.length ≤ s
      · rw [selectGo, if_pos hlen]
        exact List.nil_sublist _
      · rw [selectGo, if_neg hlen]
        have hsle : s < input.length := by omega
        have he' : s ≤ min (e + 1) input.length := by omega
        -- the selected slice together with the tail of the drop reassembles drop s
        have hsplit : (input.drop s).take (min (e + 1) input.length - s) ++
            (input.drop s).drop (min (e + 1) input.length - s) = input.drop s :=
          List.take_append_drop _ _
        have hdrop2 : (input.drop s).drop (min (e + 1) input.length - s) =
            input.drop (min (e + 1) input.length) := by
          rw [List.drop_drop]
          congr 1
          omega
        have hrest : List.Sublist (selectGo input rest) (input.drop (min (e + 1) input.length)) := by
          have hr := ih (e + 2) h3
          have : List.Sublist (input.drop (e + 2)) (input.drop (min (e + 1) input.length)) := by
            have : input.drop (e + 2) =
                (input.drop (min (e + 1) input.length)).drop (e + 2 - min (e + 1) input.length) := by
              rw [List.drop_drop]
              congr 1
              omega
            rw [this]
            exact List.drop_sublist _ _
          exact hr.trans this
        have hrest2 : List.Sublist (selectGo input rest)
            ((input.drop s).drop (min (e + 1) input.length - s)) := by
          rw [hdrop2]
          exact hrest
        have hmain : List.Sublist ((input.drop s).take (min (e + 1) input.length - s) ++ selectGo input rest)
            (input.drop s) := by
          have hstep := List.Sublist.append_left hrest2
            ((input.drop s).take (min (e + 1) input.length - s))
          rw [hsplit] at hstep
          exact hstep
        have hfinal : List.Sublist (input.drop s) (input.drop n) := by
          have : input.drop s = (input.drop n).drop (s - n) := by
            rw [List.drop_drop]
            congr 1
            omega
          rw [this]
          exact List.drop_sublist _ _
        exact hmain.trans hfinal
    | ToEnd s =>
      obtain ⟨h1, h2⟩ := hc
      subst h2
      by_cases hlen : input.length ≤ s
      · rw [selectGo, if_pos hlen]
        exact List.nil_sublist _
      · rw [selectGo, if_neg hlen]
        rw [selectGo, List.append_nil]
        have : input.drop s = (input.drop n).drop (s - n) := by
          rw [List.drop_drop]
          congr 1
          omega
        rw [this]
        exact List.drop_sublist _ _

theorem rfiCollect_nil {T : Type _} : ∀ (rs : List MergedRange) (c : Option MergedRange)
    (ni : Nat), rfiCollect ([] : List T) ni c rs = [] := by
  intro rs
  induction rs with
  | nil =>
    intro c ni
    cases c with
    | none => rw [rfiCollect.eq_1]
    | some a =>
      cases a with
      | Closed s e =>
        rw [rfiCollect.eq_2]
        split
        · split
          · rfl
          · rename_i heq
            simp at heq
        · simp only [List.drop_nil, List.head?_nil, List.tail_nil]
          rw [rfiCollect.eq_1]
      | ToEnd s =>
        rw [rfiCollect.eq_3]
        split
        · rfl
        · rename_i heq
          simp at heq
  | cons b rs' ih =>
    intro c ni
    cases c with
    | none => rw [rfiCollect.eq_1]
    | some a =>
      cases a with
      | Closed s e =>
        rw [rfiCollect.eq_2]
        split
        · split
          · rfl
          · rename_i heq
            simp at heq
        · simp only [List.drop_nil, List.head?_cons, List.tail_cons]
          exact ih _ _
      | ToEnd s =>
        rw [rfiCollect.eq_3]
        split
        · rfl
        · rename_i heq
          simp at heq

theorem rfiCollect_toEnd {T : Type _} : ∀ (n : Nat) (l : List T), l.length ≤ n →
    ∀ (ni s : Nat) (rs : List MergedRange),
    rfiCollect l ni (some (.ToEnd s)) rs = l.drop (s - ni) := by
  intro n
  induction n with
  | zero =>
    intro l hl ni s rs
    have : l = [] := List.length_eq_zero.mp (Nat.le_zero.mp hl)
    subst this
    simp [rfiCollect_nil]
  | succ n ih =>
    intro l hl ni s rs
    rw [rfiCollect.eq_3]
    split
    · rename_i heq
      exact heq.symm
    · rename_i t rest heq
      rw [heq]
      congr 1
      have hlen := congrArg List.length heq
      simp [List.length_drop] at hlen
      rw [ih rest (by omega) (max ni s) s rs]
      rw [Nat.sub_eq_zero_of_le (Nat.le_max_right ni s), List.drop_zero]

theorem rfiCollect_closed_full {T : Type _} : ∀ (n : Nat) (l : List T), l.length ≤ n →
    ∀ (ni s e : Nat) (rs : List MergedRange), s ≤ ni → ni + l.length ≤ e + 1 →
    rfiCollect l ni (some (.Closed s e)) rs = l := by
  intro n
  induction n with
  | zero =>
    intro l hl ni s e rs _ _
    have : l = [] := List.length_eq_zero.mp (Nat.le_zero.mp hl)
    subst this
    simp [rfiCollect_nil]
  | succ n ih =>
    intro l hl ni s e rs hsni hcount
    cases l with
    | nil => simp [rfiCollect_nil]
    | cons t rest =>
      have hni_le : ni ≤ e := by
        simp only [List.length_cons] at hcount
        omega
      rw [rfiCollect.eq_2, if_pos (by rw [Nat.max_eq_left hsni]; omega)]
      split
      · rename_i heq
        rw [Nat.sub_eq_zero_of_le hsni] at heq
        simp at heq
      · rename_i t2 rest2 heq
        rw [Nat.sub_eq_zero_of_le hsni, List.drop_zero] at heq
        injection heq with hh1 hh2
        subst hh1
        subst hh2
        rw [Nat.max_eq_left hsni]
        congr 1
        refine ih rest ?_ (ni + 1) s e rs (by omega) ?_
        · simp only [List.length_cons] at hl
          omega
        · simp only [List.length_cons] at hcount
          omega

theorem rfiCollect_closed_step {T : Type _} : ∀ (n : Nat) (l : List T), l.length ≤ n →
    ∀ (ni s e : Nat) (rs : List MergedRange), s ≤ ni → ni ≤ e + 1 → e + 1 < ni + l.length →
    rfiCollect l ni (some (.Closed s e)) rs =
      l.take (e + 1 - ni) ++ rfiCollect (l.drop (e + 1 - ni)) (e + 1) rs.head? rs.tail := by
  intro n
  induction n with
  | zero =>
    intro l hl ni s e rs _ hle hgt
    have : l = [] := List.length_eq_zero.mp (Nat.le_zero.mp hl)
    subst this
    simp only [List.length_nil] at hgt
    omega
  | succ n ih =>
    intro l hl ni s e rs hsni hle hgt
    by_cases hni : ni ≤ e
    · cases l with
      | nil =>
        simp only [List.length_nil] at hgt
        omega
      | cons t rest =>
        rw [rfiCollect.eq_2, if_pos (by rw [Nat.max_eq_left hsni]; omega)]
        split
        · rename_i heq
          rw [Nat.sub_eq_zero_of_le hsni] at heq
          simp at heq
        · rename_i t2 rest2 heq
          rw [Nat.sub_eq_zero_of_le hsni, List.drop_zero] at heq
          injection heq with hh1 hh2
          subst hh1
          subst hh2
          rw [Nat.max_eq_left hsni]
          have hrec := ih rest (by simp only [List.length_cons] at hl; omega) (ni + 1) s e rs
            (by omega) (by omega) (by simp only [List.length_cons] at hgt; omega)
          rw [hrec]
          rw [show e + 1 - ni = (e - ni) + 1 from by omega, List.take_succ_cons,
            List.drop_succ_cons]
          rw [show e + 1 - (ni + 1) = e - ni from by omega]
          simp [List.cons_append]
    · have hnie : ni = e + 1 := by omega
      subst hnie
      rw [rfiCollect.eq_2, if_neg (by rw [Nat.max_eq_left hsni]; omega)]
      rw [Nat.max_eq_left hsni, Nat.sub_eq_zero_of_le hsni, List.drop_zero, Nat.sub_self,
        List.take_zero, List.drop_zero, List.nil_append]

theorem selectGo_nil_of_start_ge {T : Type _} (input : List T) (rs : List MergedRange)
    (m : Nat) (hc : CanonFrom m rs) (hlen : input.length ≤ m) : selectGo input rs = [] := by
  cases rs with
  | nil => rfl
  | cons a rest =>
    cases a with
    | Closed s e => rw [selectGo, if_pos (by have := hc.1; omega)]
    | ToEnd s => rw [selectGo, if_pos (by have := hc.1; omega)]

theorem rfiCollect_eq_selectGo {T : Type _} (elements : List T) :
    ∀ (rs : List MergedRange) (ni : Nat), CanonFrom ni rs →
    rfiCollect (elements.drop ni) ni rs.head? rs.tail = selectGo elements rs := by
  intro rs
  induction rs with
  | nil =>
    intro ni _
    simp only [List.head?_nil, List.tail_nil]
    rw [rfiCollect.eq_1, selectGo]
  | cons a rest ih =>
    intro ni hc
    cases a with
    | ToEnd s =>
      obtain ⟨h1, h2⟩ := hc
      subst h2
      simp only [List.head?_cons, List.tail_cons]
      rw [rfiCollect_toEnd (elements.drop ni).length _ (Nat.le_refl _) ni s []]
      rw [List.drop_drop]
      rw [show ni + (s - ni) = s from by omega]
      by_cases hlen : elements.length ≤ s
      · rw [selectGo, if_pos hlen]
        exact List.drop_eq_nil_of_le hlen
      · rw [selectGo, if_neg hlen, selectGo, List.append_nil]
    | Closed s e =>
      obtain ⟨h1, h2, h3⟩ := hc
      simp only [List.head?_cons, List.tail_cons]
      rw [rfiCollect.eq_2, Nat.max_eq_right h1, if_pos h2]
      have hdd : (elements.drop ni).drop (s - ni) = elements.drop s := by
        rw [List.drop_drop]
        congr 1
        omega
      by_cases hlen : elements.length ≤ s
      · have hnil : elements.drop s = [] := List.drop_eq_nil_of_le hlen
        rw [selectGo, if_pos hlen]
        split
        · rfl
        · rename_i t2 rest2 heq
          rw [hdd, hnil] at heq
          simp at heq
      · split
        · rename_i heq
          rw [hdd] at heq
          have hcon := congrArg List.length heq
          simp only [List.length_drop, List.length_nil] at hcon
          omega
        · rename_i t2 rest2 heq
          rw [hdd] at heq
          have hlenkey := congrArg List.length heq
          simp only [List.length_drop, List.length_cons] at hlenkey
          have hrest2 : rest2 = elements.drop (s + 1) := by
            have htl : (elements.drop s).tail = rest2 := by rw [heq]; rfl
            rw [← htl, List.tail_drop]
          by_cases hfull : elements.length ≤ e + 1
          · rw [rfiCollect_closed_full rest2.length rest2 (Nat.le_refl _) (s + 1) s e rest
              (by omega) (by omega)]
            rw [selectGo, if_neg hlen]
            rw [selectGo_nil_of_start_ge elements rest (e + 2) h3 (by omega), List.append_nil]
            rw [show min (e + 1) elements.length = elements.length from by omega]
            rw [← heq]
            rw [List.take_of_length_le (by simp [List.length_drop])]
          · rw [rfiCollect_closed_step rest2.length rest2 (Nat.le_refl _) (s + 1) s e rest
              (by omega) (by omega) (by omega)]
            have hdrop3 : rest2.drop (e + 1 - (s + 1)) = elements.drop (e + 1) := by
              rw [hrest2, List.drop_drop]
              congr 1
              omega
            rw [hdrop3, ih (e + 1) (canonFrom_mono (by omega) h3)]
            rw [selectGo, if_neg hlen]
            rw [show min (e + 1) elements.length = e + 1 from by omega]
            rw [heq]
            rw [show e + 1 - s = (e - s) + 1 from by omega, List.take_succ_cons]
            rw [show e + 1 - (s + 1) = e - s from by omega]
            simp [List.cons_append]

theorem takeWhile_isNH_append (grp rest : List Token) (hg : ∀ t ∈ grp, isNH t = true)
    (hr : headNotNH rest = true) :
    (grp ++ rest).takeWhile isNH = grp ∧ (grp ++ rest).dropWhile isNH = rest := by
  induction grp with
  | nil =>
    simp only [List.nil_append]
    cases rest with
    | nil => exact ⟨rfl, rfl⟩
    | cons t ts =>
      have ht : isNH t = false := by
        simp only [headNotNH, Bool.not_eq_true'] at hr
        exact hr
      constructor
      · simp [List.takeWhile_cons, ht]
      · simp [List.dropWhile_cons, ht]
  | cons g grp' ih =>
    have hgh : isNH g = true := hg g (List.mem_cons_self _ _)
    obtain ⟨ih1, ih2⟩ := ih (fun t ht => hg t (List.mem_cons_of_mem _ ht))
    constructor
    · simp [List.takeWhile_cons, hgh, ih1]
    · simp [List.dropWhile_cons, hgh, ih2]

theorem parse_range_group_bad (grp : List Token) (hb : isBadGroup grp = true) :
    ∃ e, parse_range_group grp = .error e := by
  unfold isBadGroup at hb
  split at hb
  · rename_i n
    have : n = 0 := by simpa using hb
    subst this
    exact ⟨.numberedFromZero, by rw [parse_range_group, if_pos rfl]⟩
  · rename_i m
    have : m = 0 := by simpa using hb
    subst this
    exact ⟨.numberedFromZero, by rw [parse_range_group, if_pos rfl]⟩
  · rename_i n
    have : n = 0 := by simpa using hb
    subst this
    exact ⟨.numberedFromZero, by rw [parse_range_group, if_pos rfl]⟩
  · rename_i n m
    simp only [Bool.or_eq_true, beq_iff_eq, decide_eq_true_eq] at hb
    by_cases hz : n = 0 ∨ m = 0
    · exact ⟨.numberedFromZero, by rw [parse_range_group, if_pos hz]⟩
    · have hmn : m < n := by omega
      refine ⟨.descendingRange, ?_⟩
      rw [parse_range_group, if_neg hz, if_neg (by omega)]
  · cases hb

theorem containsBadGroup_nil : containsBadGroup [] = false := by
  rw [containsBadGroup]
  simp [isBadGroup]

theorem parseTokensGo_error_of_bad : ∀ (k : Nat) (toks : List Token), toks.length ≤ k →
    ∀ acc, containsBadGroup toks = true → ∃ e, parseTokensGo toks acc = Except.error e := by
  intro k
  induction k with
  | zero =>
    intro toks hlen acc hbad
    have : toks = [] := List.length_eq_zero.mp (Nat.le_zero.mp hlen)
    subst this
    rw [containsBadGroup_nil] at hbad
    cases hbad
  | succ k ih =>
    intro toks hlen acc hbad
    rw [containsBadGroup] at hbad
    rw [parseTokensGo]
    cases hg : parse_range_group (toks.takeWhile isNH) with
    | error e => exact ⟨e, rfl⟩
    | ok cr =>
      have hnb : isBadGroup (toks.takeWhile isNH) = false := by
        cases hbg : isBadGroup (toks.takeWhile isNH) with
        | false => rfl
        | true =>
          obtain ⟨e, he⟩ := parse_range_group_bad _ hbg
          rw [he] at hg
          cases hg
      rw [hnb, Bool.false_or] at hbad
      split at hbad
      · cases hbad
      · rename_i t rest2 heq
        have hlen2 : rest2.length ≤ k := by
          have h1 : (toks.dropWhile isNH).length ≤ toks.length :=
            (List.dropWhile_sublist _).length_le
          rw [heq] at h1
          simp only [List.length_cons] at h1
          omega
        split
        · rename_i e' heq2
          cases heq2
        · rename_i cr2 heq2
          injection heq2 with hcr
          subst hcr
          cases t with
          | number n => exact ⟨_, rfl⟩
          | hyphen => exact ⟨_, rfl⟩
          | comma => exact ih rest2 hlen2 (acc ++ [cr]) hbad
          | blank c => exact ih rest2 hlen2 (acc ++ [cr]) hbad

theorem splitSep_ne_nil {α : Type _} [DecidableEq α] (d : α) : ∀ l : List α,
    splitSep d l ≠ [] := by
  intro l
  cases l with
  | nil => simp [splitSep]
  | cons v rest =>
    rw [splitSep]
    split
    · simp
    · split <;> simp

theorem stripTerm_cons (d b : Nat) (c : List Nat) (hb : b ≠ d) :
    stripTerm d (b :: c) = b :: stripTerm d c := by
  cases c with
  | nil =>
    simp [stripTerm, hb]
  | cons x xs =>
    unfold stripTerm
    rw [List.getLast?_cons_cons]
    by_cases h : (x :: xs).getLast? = some d
    · rw [if_pos h, if_pos h, List.dropLast_cons₂]
    · rw [if_neg h, if_neg h]

theorem splitSep_length_two (d : Nat) : ∀ l : List Nat, l.getLast? = some d →
    2 ≤ (splitSep d l).length := by
  intro l
  induction l with
  | nil => intro h; simp at h
  | cons x rest ih =>
    intro h
    cases rest with
    | nil =>
      simp only [List.getLast?_singleton, Option.some.injEq] at h
      subst h
      simp [splitSep]
    | cons y l2 =>
      rw [List.getLast?_cons_cons] at h
      have h2 := ih h
      by_cases hx : x = d
      · rw [splitSep, if_pos hx]
        have h3 : 0 < (splitSep d (y :: l2)).length :=
          List.length_pos.mpr (splitSep_ne_nil d _)
        simp only [List.length_cons]
        omega
      · rw [splitSep, if_neg hx]
        cases hs : splitSep d (y :: l2) with
        | nil => exact absurd hs (splitSep_ne_nil d _)
        | cons f fs =>
          rw [hs] at h2
          simp only [List.length_cons] at h2 ⊢
          omega

theorem chunks_ne_nil (d : Nat) : ∀ l : List Nat, l ≠ [] → chunks d l ≠ [] := by
  intro l hl
  cases l with
  | nil => exact absurd rfl hl
  | cons b rest =>
    rw [chunks]
    split
    · simp
    · split <;> simp

theorem chunks_map_strip (d : Nat) : ∀ input : List Nat,
    (chunks d input).map (stripTerm d) = linesOf d input := by
  intro input
  induction input with
  | nil => rfl
  | cons b rest ih =>
    by_cases hb : b = d
    · rw [chunks, if_pos hb]
      simp only [List.map_cons]
      rw [ih]
      have hstrip : stripTerm d [b] = [] := by simp [stripTerm, hb]
      rw [hstrip]
      cases rest with
      | nil =>
        simp [linesOf, splitSep, hb]
      | cons r rest2 =>
        have hR : linesOf d (b :: r :: rest2) =
            if (r :: rest2).getLast? = some d
            then ([] :: splitSep d (r :: rest2)).dropLast
            else [] :: splitSep d (r :: rest2) := by
          rw [linesOf, if_neg (by simp), List.getLast?_cons_cons,
            show splitSep d (b :: r :: rest2) = [] :: splitSep d (r :: rest2) from
              by rw [splitSep, if_pos hb]]
        rw [hR]
        by_cases hl : (r :: rest2).getLast? = some d
        · rw [if_pos hl]
          cases hs : splitSep d (r :: rest2) with
          | nil => exact absurd hs (splitSep_ne_nil d _)
          | cons f fs =>
            have hfs : fs ≠ [] := by
              have h2 := splitSep_length_two d (r :: rest2) hl
              rw [hs] at h2
              simp only [List.length_cons] at h2
              intro hcc
              subst hcc
              simp at h2
            cases fs with
            | nil => exact absurd rfl hfs
            | cons f2 fs2 =>
              rw [List.dropLast_cons₂]
              rw [show linesOf d (r :: rest2) = ((f :: f2 :: fs2) : List (List Nat)).dropLast from
                by rw [linesOf, if_neg (by simp), if_pos hl, hs]]
        · rw [if_neg hl]
          rw [show linesOf d (r :: rest2) = splitSep d (r :: rest2) from
            by rw [linesOf, if_neg (by simp), if_neg hl]]
    · rw [chunks, if_neg hb]
      cases rest with
      | nil =>
        simp [chunks, stripTerm, linesOf, splitSep, hb]
      | cons r rest2 =>
        cases hc : chunks d (r :: rest2) with
        | nil => exact absurd hc (chunks_ne_nil d _ (by simp))
        | cons c cs =>
          show List.map (stripTerm d) ((b :: c) :: cs) = linesOf d (b :: r :: rest2)
          simp only [List.map_cons]
          rw [stripTerm_cons d b c hb]
          rw [hc] at ih
          simp only [List.map_cons] at ih
          rw [linesOf, if_neg (by simp), List.getLast?_cons_cons]
          cases hs : splitSep d (r :: rest2) with
          | nil => exact absurd hs (splitSep_ne_nil d _)
          | cons f fs =>
            have hsplit : splitSep d (b :: r :: rest2) = (b :: f) :: fs := by
              rw [splitSep, if_neg hb, hs]
            rw [hsplit]
            by_cases hl : (r :: rest2).getLast? = some d
            · rw [if_pos hl]
              have hlines : linesOf d (r :: rest2) = (f :: fs : List (List Nat)).dropLast := by
                rw [linesOf, if_neg (by simp), if_pos hl, hs]
              rw [hlines] at ih
              have hfs : fs ≠ [] := by
                have h2 := splitSep_length_two d (r :: rest2) hl
                rw [hs] at h2
                simp only [List.length_cons] at h2
                intro hcc
                subst hcc
                simp at h2
              cases fs with
              | nil => exact absurd rfl hfs
              | cons f2 fs2 =>
                rw [List.dropLast_cons₂] at ih ⊢
                injection ih with ih1 ih2
                rw [ih1, ih2]
            · rw [if_neg hl]
              have hlines : linesOf d (r :: rest2) = f :: fs := by
                rw [linesOf, if_neg (by simp), if_neg hl, hs]
              rw [hlines] at ih
              injection ih with ih1 ih2
              rw [ih1, ih2]

theorem flatten_map_singleton {α β : Type _} (f : α → β) : ∀ xs : List α,
    (xs.map (fun x => [f x])).flatten = xs.map f := by
  intro xs
  induction xs with
  | nil => rfl
  | cons x xs ih => simp [ih]

theorem cutLoopGo_eq (d : Nat) (step : List Nat → Option (List (List Nat))) :
    ∀ cs : List (List Nat),
    cutLoopGo d step cs =
      ((((cs.map (stripTerm d)).takeWhile (fun l => (step l).isSome)).map
        (fun l => (step l).getD [])).flatten,
       !(cs.map (stripTerm d)).all (fun l => (step l).isSome)) := by
  intro cs
  induction cs with
  | nil => rfl
  | cons c cs ih =>
    rw [cutLoopGo]
    cases hs : step (stripTerm d c) with
    | none =>
      simp [List.map_cons, List.takeWhile_cons, List.all_cons, hs]
    | some rows =>
      simp [List.map_cons, List.takeWhile_cons, List.all_cons, hs, ih]

theorem cutLoop_eq (d : Nat) (step : List Nat → Option (List (List Nat)))
    (input : List Nat) :
    cutLoop d step input =
      ((((linesOf d input).takeWhile (fun l => (step l).isSome)).map
        (fun l => (step l).getD [])).flatten,
       !(linesOf d input).all (fun l => (step l).isSome)) := by
  rw [cutLoop, cutLoopGo_eq, chunks_map_strip]

/-- C1: For every slice of CutRange values (each satisfying the invariant
start ≤ end that IncreasingRange::new asserts), the Ranges returned by
Ranges::from_ranges is canonical: its elements are strictly sorted ascending
by start, no two consecutive elements r_prev, r_next satisfy
r_next.start ≤ r_prev.end + 1, and every element other than the last is
Closed, so at most one ToEnd appears and only in last position. -/
theorem from_ranges_canonical (crs : List CutRange) (h : ∀ r ∈ crs, ValidCut r) :
    StrictlySortedStarts (Ranges.from_ranges crs).ranges ∧
    NoOverlapOrAdjacent (Ranges.from_ranges crs).ranges ∧
    ToEndOnlyLast (Ranges.from_ranges crs).ranges :=
  ⟨canonFrom_strictSorted (from_ranges_canonFrom crs h),
   canonFrom_noOverlap (from_ranges_canonFrom crs h),
   canonFrom_toEndLast (from_ranges_canonFrom crs h)⟩

/-- Witness for C1 at a concrete list of cut ranges. -/
theorem from_ranges_canonical_witness :
    (∀ r ∈ [CutRange.Unit 3, CutRange.Closed ⟨1, 4⟩, CutRange.ToEnd 9,
        CutRange.FromStart 0], ValidCut r) ∧
    (StrictlySortedStarts (Ranges.from_ranges [CutRange.Unit 3, CutRange.Closed ⟨1, 4⟩,
        CutRange.ToEnd 9, CutRange.FromStart 0]).ranges ∧
      NoOverlapOrAdjacent (Ranges.from_ranges [CutRange.Unit 3, CutRange.Closed ⟨1, 4⟩,
        CutRange.ToEnd 9, CutRange.FromStart 0]).ranges ∧
      ToEndOnlyLast (Ranges.from_ranges [CutRange.Unit 3, CutRange.Closed ⟨1, 4⟩,
        CutRange.ToEnd 9, CutRange.FromStart 0]).ranges) :=
  ⟨by decide, from_ranges_canonical _ (by decide)⟩

/-- C4: complement is an involution on canonical Ranges; moreover the
complement of the Ranges covering everything, which is the Ranges that
parsing the text 1- produces, is the empty Ranges, and the complement of the
empty Ranges is the single range ToEnd(0). -/
theorem complement_involution :
    (∀ r : Ranges, CanonFrom 0 r.ranges → r.complement.complement = r) ∧
    Ranges.complement ⟨[.ToEnd 0]⟩ = ⟨[]⟩ ∧
    Ranges.complement ⟨[]⟩ = ⟨[.ToEnd 0]⟩ ∧
    parse ['1', '-'] = .ok ⟨[.ToEnd 0]⟩ := by
  refine ⟨?_, by decide, by decide, ?_⟩
  · intro r hc
    cases r with
    | mk rs =>
      show Ranges.mk (complementGo 0 false (complementGo 0 false rs)) = Ranges.mk rs
      exact congrArg Ranges.mk (complementGo_involution rs hc)
  · have h1 : parseTokensGo [Token.number 1, .hyphen] [] = .ok [CutRange.ToEnd 0] := by
      simp [parseTokensGo, parse_range_group, isNH, List.dropWhile, List.takeWhile]
    simp [parse, parse_tokens, scan, natOfDigits, List.dropWhile, List.takeWhile, h1]
    decide

/-- Witness for C4 at a concrete canonical Ranges. -/
theorem complement_involution_witness :
    CanonFrom 0 ([MergedRange.Closed 1 3] : List MergedRange) ∧
    Ranges.complement (Ranges.complement ⟨[MergedRange.Closed 1 3]⟩) =
      ⟨[MergedRange.Closed 1 3]⟩ :=
  ⟨by decide, complement_involution.1 ⟨[MergedRange.Closed 1 3]⟩ (by decide)⟩

/-- C2: for every element list and every canonical Ranges, select returns
exactly the concatenation, in range order, of the clipped slices
elements[s .. min(e+1, len)] for Closed(s,e) with s < len and elements[s..]
for ToEnd(s) with s < len, ranges starting at or past len contributing
nothing; consequently the output length is the sum of the clipped slice
lengths and the output is a sublist of the input, so select never reorders
or duplicates elements. -/
theorem select_eq_spec_clips {T : Type _} (input : List T) (r : Ranges)
    (hc : CanonFrom 0 r.ranges) :
    select input r = (r.ranges.map (specClipSlice input)).flatten ∧
    (select input r).length =
      (r.ranges.map (fun mr => (specClipSlice input mr).length)).sum ∧
    List.Sublist (select input r) input := by
  have h1 := selectGo_eq_clips input r.ranges 0 hc
  refine ⟨h1, ?_, ?_⟩
  · show (selectGo input r.ranges).length = _
    rw [h1, List.length_flatten, List.map_map]
    rfl
  · have h2 := selectGo_sublist input r.ranges 0 hc
    rw [List.drop_zero] at h2
    exact h2

/-- Witness for C2 at a concrete input and canonical Ranges. -/
theorem select_eq_spec_clips_witness :
    CanonFrom 0 ([MergedRange.Closed 0 0, MergedRange.ToEnd 2] : List MergedRange) ∧
    (select [10, 20, 30, 40] (⟨[MergedRange.Closed 0 0, MergedRange.ToEnd 2]⟩ : Ranges) =
        (([MergedRange.Closed 0 0, MergedRange.ToEnd 2]).map
          (specClipSlice [10, 20, 30, 40])).flatten ∧
      (select [10, 20, 30, 40] (⟨[MergedRange.Closed 0 0, MergedRange.ToEnd 2]⟩ : Ranges)).length =
        (([MergedRange.Closed 0 0, MergedRange.ToEnd 2]).map
          (fun mr => (specClipSlice [10, 20, 30, 40] mr).length)).sum ∧
      List.Sublist
        (select [10, 20, 30, 40] (⟨[MergedRange.Closed 0 0, MergedRange.ToEnd 2]⟩ : Ranges))
        [10, 20, 30, 40]) :=
  ⟨by decide, select_eq_spec_clips [10, 20, 30, 40] ⟨[MergedRange.Closed 0 0,
    MergedRange.ToEnd 2]⟩ (by decide)⟩

theorem selectCheckedGo_eq_of_valid {T : Type _} (input : List T) :
    ∀ rs : List MergedRange, (∀ mr ∈ rs, ValidMR mr ∧ ClosedEndBound mr) →
    selectCheckedGo input rs = some (selectGo input rs) := by
  intro rs
  induction rs with
  | nil => intro _; rfl
  | cons a rest ih =>
    intro h
    obtain ⟨hv, hb⟩ := h a (List.mem_cons_self _ _)
    have ihr := ih (fun mr hm => h mr (List.mem_cons_of_mem _ hm))
    cases a with
    | Closed s e =>
      by_cases hlen : input.length ≤ s
      · rw [selectCheckedGo, if_pos hlen, selectGo, if_pos hlen]
      · have hse : s ≤ e := hv
        have heb : e < usizeMax := hb
        rw [selectCheckedGo, if_neg hlen, if_neg (by omega)]
        simp only [if_pos (by constructor <;> omega :
          s ≤ min (e + 1) input.length ∧ min (e + 1) input.length ≤ input.length)]
        rw [ihr, selectGo, if_neg hlen]
        rfl
    | ToEnd s =>
      by_cases hlen : input.length ≤ s
      · rw [selectCheckedGo, if_pos hlen, selectGo, if_pos hlen]
      · rw [selectCheckedGo, if_neg hlen, if_pos (by omega : s ≤ input.length)]
        rw [ihr, selectGo, if_neg hlen]
        rfl

/-- C10 counterexample: the claim is false as stated.  The Ranges holding the
single range Closed(5,3) has all Closed ends below usize::MAX, yet select
panics on a six-element input: the slice expression input[5..4] has its start
above its end (selectChecked, the model in which none marks a panic, returns
none rather than a value). -/
theorem select_checked_counterexample :
    ¬ (∀ (input : List Nat) (r : Ranges), (∀ mr ∈ r.ranges, ClosedEndBound mr) →
        ∃ out, selectChecked input r = some out) := by
  intro h
  obtain ⟨out, hout⟩ := h [0, 0, 0, 0, 0, 0] ⟨[.Closed 5 3]⟩ (by decide)
  rw [show selectChecked [0, 0, 0, 0, 0, 0] (⟨[MergedRange.Closed 5 3]⟩ : Ranges) = none from
    by decide] at hout
  exact Option.noConfusion hout

/-- C10 amended: select is panic-free for every element list and every Ranges
whose Closed ranges all have start ≤ end and end < usize::MAX (both hold for
every Ranges produced by parse): every slice access is in bounds, the
arithmetic end + 1 does not overflow, and the checked model returns exactly
the value of select. -/
theorem select_checked_total {T : Type _} (input : List T) (r : Ranges)
    (h : ∀ mr ∈ r.ranges, ValidMR mr ∧ ClosedEndBound mr) :
    selectChecked input r = some (select input r) :=
  selectCheckedGo_eq_of_valid input r.ranges h

/-- Witness for the amended C10 at a concrete input. -/
theorem select_checked_total_witness :
    (∀ mr ∈ (⟨[MergedRange.Closed 1 2, MergedRange.ToEnd 9]⟩ : Ranges).ranges,
      ValidMR mr ∧ ClosedEndBound mr) ∧
    selectChecked [5, 6, 7] (⟨[MergedRange.Closed 1 2, MergedRange.ToEnd 9]⟩ : Ranges) =
      some (select [5, 6, 7] (⟨[MergedRange.Closed 1 2, MergedRange.ToEnd 9]⟩ : Ranges)) :=
  ⟨by decide, select_checked_total [5, 6, 7] ⟨[MergedRange.Closed 1 2, MergedRange.ToEnd 9]⟩
    (by decide)⟩

/-- C9: the two selection implementations agree: for every element list and
every canonical Ranges, collecting all items of the RangeFilterIterator (the
lazy iterator used by the field modes) yields exactly the same sequence as
the slice-based select used by the byte and character modes. -/
theorem iterator_select_agree {T : Type _} (elements : List T) (r : Ranges)
    (hc : CanonFrom 0 r.ranges) : rfiCollectInit elements r = select elements r := by
  have h := rfiCollect_eq_selectGo elements r.ranges 0 hc
  rw [List.drop_zero] at h
  exact h

/-- Witness for C9 at a concrete element list and canonical Ranges. -/
theorem iterator_select_agree_witness :
    CanonFrom 0 ([MergedRange.Closed 1 2, MergedRange.ToEnd 4] : List MergedRange) ∧
    rfiCollectInit [10, 20, 30, 40, 50, 60]
        (⟨[MergedRange.Closed 1 2, MergedRange.ToEnd 4]⟩ : Ranges) =
      select [10, 20, 30, 40, 50, 60]
        (⟨[MergedRange.Closed 1 2, MergedRange.ToEnd 4]⟩ : Ranges) :=
  ⟨by decide, iterator_select_agree [10, 20, 30, 40, 50, 60]
    ⟨[MergedRange.Closed 1 2, MergedRange.ToEnd 4]⟩ (by decide)⟩

/-- C6: parse rejects invalid range tokens with the specified errors: a range
group mentioning the number 0 in any of the four token shapes produces the
NumberedFromZero error, a group N-M with both endpoints nonzero and N > M
produces the DescendingRange error, and whenever such a group appears
anywhere in the scanned token list, parse returns an error, never a
Ranges. -/
theorem parse_rejects_zero_and_descending :
    (∀ rest : List Token, headNotNH rest = true →
      (parse_range (Token.number 0 :: rest) = .error .numberedFromZero) ∧
      (parse_range (Token.hyphen :: Token.number 0 :: rest) = .error .numberedFromZero) ∧
      (parse_range (Token.number 0 :: Token.hyphen :: rest) = .error .numberedFromZero) ∧
      (∀ n m : Nat, n = 0 ∨ m = 0 →
        parse_range (Token.number n :: Token.hyphen :: Token.number m :: rest) =
          .error .numberedFromZero) ∧
      (∀ n m : Nat, 0 < m → m < n →
        parse_range (Token.number n :: Token.hyphen :: Token.number m :: rest) =
          .error .descendingRange)) ∧
    (∀ (s : List Char) (toks : List Token), scan s = .ok toks →
      containsBadGroup toks = true → ∃ e, parse s = .error e) := by
  constructor
  · intro rest hr
    refine ⟨?_, ?_, ?_, ?_, ?_⟩
    · have h := takeWhile_isNH_append [Token.number 0] rest
        (by intro t ht; simp at ht; subst ht; rfl) hr
      simp only [List.cons_append, List.nil_append] at h
      rw [parse_range, h.1]
      rfl
    · have h := takeWhile_isNH_append [Token.hyphen, Token.number 0] rest
        (by intro t ht; simp at ht; rcases ht with rfl | rfl <;> rfl) hr
      simp only [List.cons_append, List.nil_append] at h
      rw [parse_range, h.1]
      rfl
    · have h := takeWhile_isNH_append [Token.number 0, Token.hyphen] rest
        (by intro t ht; simp at ht; rcases ht with rfl | rfl <;> rfl) hr
      simp only [List.cons_append, List.nil_append] at h
      rw [parse_range, h.1]
      rfl
    · intro n m hz
      have h := takeWhile_isNH_append [Token.number n, Token.hyphen, Token.number m] rest
        (by intro t ht; simp at ht; rcases ht with rfl | rfl | rfl <;> rfl) hr
      simp only [List.cons_append, List.nil_append] at h
      rw [parse_range, h.1, parse_range_group, if_pos hz]
    · intro n m hm hmn
      have h := takeWhile_isNH_append [Token.number n, Token.hyphen, Token.number m] rest
        (by intro t ht; simp at ht; rcases ht with rfl | rfl | rfl <;> rfl) hr
      simp only [List.cons_append, List.nil_append] at h
      rw [parse_range, h.1, parse_range_group, if_neg (by omega), if_neg (by omega)]
  · intro s toks hscan hbad
    obtain ⟨e, he⟩ := parseTokensGo_error_of_bad toks.length toks (Nat.le_refl _) [] hbad
    refine ⟨e, ?_⟩
    rw [parse, hscan]
    show parse_tokens toks = Except.error e
    rw [parse_tokens, he]
    rfl

/-- Witness for C6 at concrete token lists and a concrete range text. -/
theorem parse_rejects_zero_and_descending_witness :
    parse_range [Token.number 0] = .error .numberedFromZero ∧
    parse_range [Token.number 5, Token.hyphen, Token.number 2] = .error .descendingRange ∧
    (∃ e, parse ['1', ',', '0'] = .error e) := by
  refine ⟨?_, ?_, ?_⟩
  · exact (parse_rejects_zero_and_descending.1 [] rfl).1
  · exact (parse_rejects_zero_and_descending.1 [] rfl).2.2.2.2 5 2 (by omega) (by omega)
  · refine parse_rejects_zero_and_descending.2 ['1', ',', '0']
      [.number 1, .comma, .number 0] ?_ ?_
    · simp [scan, natOfDigits, List.takeWhile, List.dropWhile]
    · simp [containsBadGroup, isBadGroup, isNH, List.takeWhile, List.dropWhile]

/-- C5: the streaming loop splits the input on the terminator byte, strips
exactly one trailing terminator per chunk, and appends exactly one
terminator byte to every emitted row, so an input without a trailing
terminator still produces a terminated final row; an empty input produces
no rows. -/
theorem cut_bytes_streaming (d : Nat) (ranges : Ranges) :
    (∀ input : List Nat, cut_bytes d ranges input =
      ((linesOf d input).map (fun l => select l ranges ++ [d]), false)) ∧
    cut_bytes d ranges [] = ([], false) := by
  have h1 : ∀ cs : List (List Nat), cutLoopGo d (fun l => some [select l ranges ++ [d]]) cs
      = ((cs.map (stripTerm d)).map (fun l => select l ranges ++ [d]), false) := by
    intro cs
    induction cs with
    | nil => rfl
    | cons c cs ih =>
      rw [cutLoopGo]
      simp [ih]
  have hmain : ∀ input : List Nat, cut_bytes d ranges input =
      ((linesOf d input).map (fun l => select l ranges ++ [d]), false) := by
    intro input
    rw [cut_bytes, cutLoop, h1, chunks_map_strip]
  exact ⟨hmain, hmain []⟩

/-- C7: an encoding error is raised exactly when the mode requires valid
UTF-8 and some line is not valid UTF-8: cut_bytes never fails on any byte
input, while cut_characters and both field modes process exactly the lines
before the first invalid one and set the error flag precisely when an
invalid line exists. -/
theorem encoding_error_iff (d : Nat) (ranges : Ranges) (fdelim : Nat) (joiner : List Nat)
    (suppress : Bool) (isMatch : List Nat → Bool) (splitf : List Nat → List (List Nat))
    (input : List Nat) :
    (cut_bytes d ranges input).2 = false ∧
    cut_characters d ranges input =
      (((linesOf d input).takeWhile validUtf8).map
        (fun l => utf8Encode (select ((utf8Decode l).getD []) ranges) ++ [d]),
       !(linesOf d input).all validUtf8) ∧
    cut_fields_with_char d fdelim joiner suppress ranges input =
      ((((linesOf d input).takeWhile validUtf8).map
        (fun l => (fieldsCharStep d fdelim joiner suppress ranges l).getD [])).flatten,
       !(linesOf d input).all validUtf8) ∧
    cut_fields_with_regex d isMatch splitf joiner suppress ranges input =
      ((((linesOf d input).takeWhile validUtf8).map
        (fun l => (fieldsRegexStep d isMatch splitf joiner suppress ranges l).getD [])).flatten,
       !(linesOf d input).all validUtf8) := by
  refine ⟨?_, ?_, ?_, ?_⟩
  · rw [cut_bytes, cutLoop_eq]
    simp
  · rw [cut_characters, cutLoop_eq]
    have hpred : (fun l => ((utf8Decode l).map
        (fun cs => [utf8Encode (select cs ranges) ++ [d]])).isSome) = validUtf8 := by
      funext l
      simp [validUtf8]
    rw [hpred]
    have hpt : ∀ l ∈ (linesOf d input).takeWhile validUtf8,
        ((utf8Decode l).map (fun cs => [utf8Encode (select cs ranges) ++ [d]])).getD [] =
        [utf8Encode (select ((utf8Decode l).getD []) ranges) ++ [d]] := by
      intro l hl
      have hv := List.mem_takeWhile_imp hl
      obtain ⟨cs, hcs⟩ := Option.isSome_iff_exists.mp (by simpa [validUtf8] using hv)
      rw [hcs]
      rfl
    rw [List.map_congr_left hpt, flatten_map_singleton]
  · rw [cut_fields_with_char, cutLoop_eq]
    have hpred : (fun l => (fieldsCharStep d fdelim joiner suppress ranges l).isSome)
        = validUtf8 := by
      funext l
      simp [fieldsCharStep, validUtf8]
    rw [hpred]
  · rw [cut_fields_with_regex, cutLoop_eq]
    have hpred : (fun l => (fieldsRegexStep d isMatch splitf joiner suppress ranges l).isSome)
        = validUtf8 := by
      funext l
      simp [fieldsRegexStep, validUtf8]
    rw [hpred]

/-- C3: in both field modes, on a line in which the delimiter does not
occur, suppress on drops the line (no output row) and suppress off emits the
original line bytes verbatim followed by the terminator; on a line in which
the delimiter occurs, splitting, selection and joining are applied
regardless of the suppress flag. -/
theorem fields_no_delimiter_policy (d fdelim : Nat) (joiner : List Nat) (ranges : Ranges)
    (isMatch : List Nat → Bool) (splitf : List Nat → List (List Nat))
    (l line : List Nat) (hdec : utf8Decode l = some line) :
    (line.contains fdelim = false →
      fieldsCharStep d fdelim joiner true ranges l = some [] ∧
      fieldsCharStep d fdelim joiner false ranges l = some [l ++ [d]]) ∧
    (line.contains fdelim = true → ∀ suppress : Bool,
      fieldsCharStep d fdelim joiner suppress ranges l =
        some [utf8Encode (List.intercalate joiner
          (rfiCollectInit (splitSep fdelim line) ranges)) ++ [d]]) ∧
    (isMatch line = false →
      fieldsRegexStep d isMatch splitf joiner true ranges l = some [] ∧
      fieldsRegexStep d isMatch splitf joiner false ranges l = some [l ++ [d]]) ∧
    (isMatch line = true → ∀ suppress : Bool,
      fieldsRegexStep d isMatch splitf joiner suppress ranges l =
        some [utf8Encode (List.intercalate joiner
          (rfiCollectInit (splitf line) ranges)) ++ [d]]) := by
  refine ⟨?_, ?_, ?_, ?_⟩
  · intro h
    have hm : fdelim ∉ line := by simpa using h
    constructor <;> simp [fieldsCharStep, hdec, hm]
  · intro h suppress
    have hm : fdelim ∈ line := by simpa using h
    simp [fieldsCharStep, hdec, hm]
  · intro h
    constructor <;> simp [fieldsRegexStep, hdec, h]
  · intro h suppress
    simp [fieldsRegexStep, hdec, h]

/-- Witness for C3 at a concrete valid line without the delimiter. -/
theorem fields_no_delimiter_policy_witness :
    utf8Decode [97, 44, 98] = some [97, 44, 98] ∧
    ([97, 44, 98] : List Nat).contains 58 = false ∧
    fieldsCharStep 10 58 [59] true ⟨[MergedRange.Closed 0 0]⟩ [97, 44, 98] = some [] ∧
    fieldsCharStep 10 58 [59] false ⟨[MergedRange.Closed 0 0]⟩ [97, 44, 98] =
      some [[97, 44, 98] ++ [10]] := by
  have h := fields_no_delimiter_policy 10 58 [59] ⟨[MergedRange.Closed 0 0]⟩
    (fun _ => false) (fun _ => []) [97, 44, 98] [97, 44, 98] (by decide)
  exact ⟨by decide, by decide, (h.1 (by decide)).1, (h.1 (by decide)).2⟩

/-- C8: parsing the text 2-4,7-,-3 succeeds: the groups become Closed(1,3),
ToEnd(6) and FromStart(2), and from_ranges merges them to exactly
Closed(0,3) followed by ToEnd(6). -/
theorem parse_concrete_merge :
    parse ['2', '-', '4', ',', '7', '-', ',', '-', '3'] =
      .ok ⟨[.Closed 0 3, .ToEnd 6]⟩ ∧
    Ranges.from_ranges [.Closed ⟨1, 3⟩, .ToEnd 6, .FromStart 2] =
      ⟨[.Closed 0 3, .ToEnd 6]⟩ := by
  constructor
  · have h1 : parseTokensGo [Token.number 2, .hyphen, .number 4, .comma, .number 7, .hyphen,
        .comma, .hyphen, .number 3] [] =
        .ok [CutRange.Closed ⟨1, 3⟩, CutRange.ToEnd 6, CutRange.FromStart 2] := by
      simp [parseTokensGo, parse_range_group, isNH, List.dropWhile, List.takeWhile]
    simp [parse, parse_tokens, scan, natOfDigits, List.dropWhile, List.takeWhile, h1]
    decide
  · decide

end Rut
